import Mathlib

/-!
Verification of the VIXL `CPUFeatures` core (`src/cpu-features.cc`).

The companion header `cpu-features.h` (defining the `Feature` enum,
`kNone` and `kNumberOfFeatures`) is not part of the given source, so we
parametrize everything by `N = kNumberOfFeatures`.  The static assertion
in `CPUFeaturesConstIterator::operator++` states
`CPUFeatures::kNone == CPUFeatures::kNumberOfFeatures`, so the sentinel
`kNone` is written as `N` throughout.  Feature identifiers are modelled
as natural numbers; valid identifiers are those below `N`, the sentinel
is exactly `N`.  The 64-bit mask `features_` is modelled as a natural
number (the `uint64_t` range bound `features_ < 2 ^ 64` appears as an
explicit hypothesis where a proof needs it).

Fatal `VIXL_ASSERT` / `VIXL_STATIC_ASSERT` failures are modelled by
`Option`: a function returns `none` exactly when the C++ would hit an
assertion with that input.
-/

namespace vixl

/-- `UINT64_C(-1)`: all 64 mask bits set. -/
def uint64Max : Nat := 2 ^ 64 - 1

/-- The C++ `~x` on `uint64_t`, for `x < 2 ^ 64`. -/
def not64 (x : Nat) : Nat := x ^^^ uint64Max

/-- `MakeFeatureMask` (cpu-features.cc:35-45): contribution of one feature
identifier to the mask.  `kNone` (here `N`) contributes `0`; otherwise the
static assert `kNumberOfFeatures <= 64` and the runtime assert
`feature < kNumberOfFeatures` guard `1 << feature`.  An assertion failure
is `none`. -/
def MakeFeatureMask (N f : Nat) : Option Nat :=
  if f = N then some 0
  else if N ≤ 64 then
    if f < N then some (2 ^ f) else none
  else none

/-- The `CPUFeatures` value type: a single `uint64_t features_` mask. -/
structure CPUFeatures where
  features_ : Nat
deriving DecidableEq, Repr

/-- The default constructor / `CPUFeatures()` with every argument `kNone`:
`features_(0)` and four zero contributions. -/
def CPUFeatures.empty : CPUFeatures := ⟨0⟩

/-- `CPUFeatures::Combine(const CPUFeatures&)` (cpu-features.cc:68-70),
as a function returning the mutated value. -/
def CPUFeatures.CombineSet (s other : CPUFeatures) : CPUFeatures :=
  ⟨s.features_ ||| other.features_⟩

/-- `CPUFeatures::Combine(Feature, Feature, Feature, Feature)`
(cpu-features.cc:72-80): four sequential `features_ |= MakeFeatureMask(...)`. -/
def CPUFeatures.Combine4 (N : Nat) (s : CPUFeatures) (f0 f1 f2 f3 : Nat) :
    Option CPUFeatures := do
  let m0 ← MakeFeatureMask N f0
  let m1 ← MakeFeatureMask N f1
  let m2 ← MakeFeatureMask N f2
  let m3 ← MakeFeatureMask N f3
  pure ⟨s.features_ ||| m0 ||| m1 ||| m2 ||| m3⟩

/-- The four-argument `CPUFeatures` constructor (cpu-features.cc:47-53):
`features_(0)` then `Combine(feature0..feature3)`. -/
def CPUFeatures.make4 (N f0 f1 f2 f3 : Nat) : Option CPUFeatures :=
  CPUFeatures.Combine4 N CPUFeatures.empty f0 f1 f2 f3

/-- `CPUFeatures::All()` (cpu-features.cc:55-61): mask `(1 << N) - 1`,
guarded by the static assert `kNumberOfFeatures < 64` (`none` on failure). -/
def CPUFeatures.All (N : Nat) : Option CPUFeatures :=
  if N < 64 then some ⟨2 ^ N - 1⟩ else none

/-- `CPUFeatures::Remove(const CPUFeatures&)` (cpu-features.cc:82-84):
`features_ &= ~other.features_`. -/
def CPUFeatures.RemoveSet (s other : CPUFeatures) : CPUFeatures :=
  ⟨s.features_ &&& not64 other.features_⟩

/-- `CPUFeatures::Remove(Feature, Feature, Feature, Feature)`
(cpu-features.cc:86-94): four sequential `features_ &= ~MakeFeatureMask(...)`. -/
def CPUFeatures.Remove4 (N : Nat) (s : CPUFeatures) (f0 f1 f2 f3 : Nat) :
    Option CPUFeatures := do
  let m0 ← MakeFeatureMask N f0
  let m1 ← MakeFeatureMask N f1
  let m2 ← MakeFeatureMask N f2
  let m3 ← MakeFeatureMask N f3
  pure ⟨s.features_ &&& not64 m0 &&& not64 m1 &&& not64 m2 &&& not64 m3⟩

/-- `CPUFeatures::With(const CPUFeatures&)` (cpu-features.cc:96-100):
copy, `Combine`, return the copy. -/
def CPUFeatures.WithSet (s other : CPUFeatures) : CPUFeatures :=
  CPUFeatures.CombineSet s other

/-- `CPUFeatures::With(Feature...)` (cpu-features.cc:102-109). -/
def CPUFeatures.With4 (N : Nat) (s : CPUFeatures) (f0 f1 f2 f3 : Nat) :
    Option CPUFeatures :=
  CPUFeatures.Combine4 N s f0 f1 f2 f3

/-- `CPUFeatures::Without(const CPUFeatures&)` (cpu-features.cc:111-115):
copy, `Remove`, return the copy. -/
def CPUFeatures.WithoutSet (s other : CPUFeatures) : CPUFeatures :=
  CPUFeatures.RemoveSet s other

/-- `CPUFeatures::Without(Feature...)` (cpu-features.cc:117-124). -/
def CPUFeatures.Without4 (N : Nat) (s : CPUFeatures) (f0 f1 f2 f3 : Nat) :
    Option CPUFeatures :=
  CPUFeatures.Remove4 N s f0 f1 f2 f3

/-- `CPUFeatures::Has(const CPUFeatures&)` (cpu-features.cc:126-128):
`(features_ & other.features_) == other.features_`. -/
def CPUFeatures.HasSet (s other : CPUFeatures) : Bool :=
  s.features_ &&& other.features_ == other.features_

/-- `CPUFeatures::Has(Feature, Feature, Feature, Feature)`
(cpu-features.cc:130-137). -/
def CPUFeatures.Has4 (N : Nat) (s : CPUFeatures) (f0 f1 f2 f3 : Nat) :
    Option Bool := do
  let m0 ← MakeFeatureMask N f0
  let m1 ← MakeFeatureMask N f1
  let m2 ← MakeFeatureMask N f2
  let m3 ← MakeFeatureMask N f3
  let mask := m0 ||| m1 ||| m2 ||| m3
  pure (s.features_ &&& mask == mask)

/-- Modelled from the spec: `CountSetBits` lives in `utils-vixl.h`, which is
not part of the given source; the spec designates it an external
count-set-bits primitive with standard population-count semantics. -/
def CountSetBits (n : Nat) : Nat :=
  if n = 0 then 0 else n % 2 + CountSetBits (n / 2)
decreasing_by exact Nat.div_lt_self (Nat.pos_of_ne_zero (by assumption)) (by omega)

/-- Modelled from the spec: `CountTrailingZeros` lives in `utils-vixl.h`,
which is not part of the given source; the spec designates it an external
count-trailing-zeros primitive with standard semantics (never called on 0
by this core; we return the width 64 there). -/
def CountTrailingZeros (n : Nat) : Nat :=
  if n = 0 then 64
  else if n % 2 = 1 then 0
  else CountTrailingZeros (n / 2) + 1
decreasing_by exact Nat.div_lt_self (Nat.pos_of_ne_zero (by assumption)) (by omega)

/-- `CPUFeatures::Count()` (cpu-features.cc:139). -/
def CPUFeatures.Count (s : CPUFeatures) : Nat := CountSetBits s.features_

/-!
The iterator (`CPUFeaturesConstIterator`).  Its state is the referenced
set together with the current feature identifier `feature_`; the sentinel
`kNone = N` marks the end position.  The `do { ... } while (!Has(feature_))`
loop of `operator++` (cpu-features.cc:186-200) scans candidate identifiers
upward; it is embedded with explicit fuel, one unit per loop iteration, so
that the loop body stays a structural recursion.  `scanFromOpt` is the loop
itself (`none` = the loop has not finished within the given fuel);
`scanFrom` is the same scan with the exhausted-fuel case returning the
current candidate, used with fuel `N + 1`, which the termination theorem
shows is always enough.
-/

/-- One candidate at a time: stop at the first `c` with `Has(c)`, i.e. the
first `c` that is the sentinel `N` or a set bit of `mask`
(`Has(kNone)` is always true; `Has(c)` for a valid `c` tests bit `c`). -/
def scanFrom (N mask : Nat) : Nat → Nat → Nat
  | c, 0 => c
  | c, k + 1 =>
    if c = N || mask.testBit c then c else scanFrom N mask (c + 1) k

/-- The scan as the partial do-while loop: `none` when the fuel runs out
before the loop's exit condition is reached. -/
def scanFromOpt (N mask : Nat) : Nat → Nat → Option Nat
  | _, 0 => none
  | c, k + 1 =>
    if c = N || mask.testBit c then some c else scanFromOpt N mask (c + 1) k

/-- `CPUFeaturesConstIterator::operator++` (prefix, cpu-features.cc:186-200):
the first candidate is `0` when `feature_ == kNone`, else `feature_ + 1`;
then scan upward until `Has`.  Fuel `N + 1` covers the whole range. -/
def operatorInc (N mask f : Nat) : Nat :=
  scanFrom N mask (if f = N then 0 else f + 1) (N + 1)

/-- `CPUFeatures::begin()` (cpu-features.cc:157-164): position of the first
member (`CountTrailingZeros`), or the sentinel `N` for the empty mask. -/
def CPUFeatures.beginFeature (N : Nat) (s : CPUFeatures) : Nat :=
  if s.features_ = 0 then N else CountTrailingZeros s.features_

/-- `CPUFeatures::end()` (cpu-features.cc:166-168): the sentinel position. -/
def CPUFeatures.endFeature (N : Nat) : Nat := N

/-- The `while (it != features.end()) { ... ++it; }` traversal
(cpu-features.cc:170-178) as the list of visited feature identifiers,
starting from iterator position `f`.  Fuel again bounds the loop. -/
def iterListAux (N mask : Nat) : Nat → Nat → List Nat
  | _, 0 => []
  | f, k + 1 =>
    if f = N then [] else f :: iterListAux N mask (operatorInc N mask f) k

/-- The full iteration of a set from `begin()` to `end()`. -/
def CPUFeatures.toList (N : Nat) (s : CPUFeatures) : List Nat :=
  iterListAux N s.features_ (CPUFeatures.beginFeature N s) (N + 1)

/-- `operator<<(std::ostream&, CPUFeatures::Feature)` (cpu-features.cc:141-155).
Modelled from the spec: the per-feature `NAME` strings come from the
`VIXL_CPU_FEATURE_LIST` table in `cpu-features.h`, which is not part of the
given source; the spec designates it an external name table (one entry per
valid identifier), so it is passed in as `name`.  The sentinel case prints
the literal string "none"; a value outside the enum falls through to
`VIXL_UNREACHABLE()`, modelled as `none`. -/
def formatFeature (name : Nat → String) (N f : Nat) : Option String :=
  if f = N then some "none"
  else if f < N then some (name f) else none

/-- The body of `operator<<(std::ostream&, const CPUFeatures&)`
(cpu-features.cc:170-178), over the list of features the iterator visits:
print the current feature, advance, and print ", " exactly when the
iterator has not reached `end()`. -/
def formatLoop (name : Nat → String) (N : Nat) : List Nat → Option String
  | [] => some ""
  | f :: rest => do
    let x ← formatFeature name N f
    let r ← formatLoop name N rest
    pure (if rest.isEmpty then x else x ++ ", " ++ r)

/-- `operator<<(std::ostream&, const CPUFeatures&)` (cpu-features.cc:170-178):
everything the traversal writes to the stream. -/
def CPUFeatures.render (name : Nat → String) (N : Nat) (s : CPUFeatures) :
    Option String :=
  formatLoop name N (s.toList N)

/-- Refinement target, following the spec's words: the members' names
"comma-and-space separated, no trailing separator", the empty list giving
the empty string. -/
def sepJoin : List String → String
  | [] => ""
  | [x] => x
  | x :: y :: rest => x ++ ", " ++ sepJoin (y :: rest)

/-!  Behaviour of the scan with sufficient fuel. -/

/-- With fuel beyond `N - c`, the scan stops at the first candidate at or
after `c` that is the sentinel or a member: the result is in `[c, N]`, the
loop's exit condition holds there, and every candidate strictly before it
was a non-member. -/
theorem scanFrom_spec (N mask : Nat) :
    ∀ k c, c ≤ N → N - c < k →
      c ≤ scanFrom N mask c k ∧ scanFrom N mask c k ≤ N ∧
      (scanFrom N mask c k = N ∨ mask.testBit (scanFrom N mask c k) = true) ∧
      ∀ j, c ≤ j → j < scanFrom N mask c k → mask.testBit j = false := by
  intro k
  induction k with
  | zero => intro c _ hk; omega
  | succ k ih =>
    intro c hc hk
    by_cases hstop : c = N ∨ mask.testBit c = true
    · have hguard : (c = N || mask.testBit c) = true := by
        rcases hstop with h | h <;> simp [h]
      simp only [scanFrom, hguard, if_true]
      exact ⟨Nat.le_refl c, hc, hstop, fun j hj hjc => absurd hjc (by omega)⟩
    · have hcN : c ≠ N := fun h => hstop (Or.inl h)
      have hbit : mask.testBit c = false := by
        cases h : mask.testBit c
        · rfl
        · exact absurd (Or.inr h) hstop
      have hguard : (c = N || mask.testBit c) = false := by simp [hcN, hbit]
      simp only [scanFrom, hguard, Bool.false_eq_true, if_false]
      obtain ⟨h1, h2, h3, h4⟩ := ih (c + 1) (by omega) (by omega)
      refine ⟨by omega, h2, h3, fun j hj hjlt => ?_⟩
      rcases Nat.eq_or_lt_of_le hj with rfl | hj'
      · exact hbit
      · exact h4 j (by omega) hjlt

/-- The partial loop agrees with the total scan whenever the fuel is
sufficient: the do-while loop finishes. -/
theorem scanFromOpt_eq_scanFrom (N mask : Nat) :
    ∀ k c, c ≤ N → N - c < k →
      scanFromOpt N mask c k = some (scanFrom N mask c k) := by
  intro k
  induction k with
  | zero => intro c _ hk; omega
  | succ k ih =>
    intro c hc hk
    by_cases hguard : (c = N || mask.testBit c) = true
    · simp only [scanFromOpt, scanFrom, hguard, if_true]
    · have hguard' : (c = N || mask.testBit c) = false := by
        cases h : (c = N || mask.testBit c)
        · rfl
        · exact absurd h hguard
      have hcN : c ≠ N := by
        intro h
        simp [h] at hguard'
      simp only [scanFromOpt, scanFrom, hguard', Bool.false_eq_true, if_false]
      exact ih (c + 1) (by omega) (by omega)

/-- Fuel irrelevance: any two sufficient fuels give the same scan result. -/
theorem scanFrom_fuel_irrel (N mask : Nat) :
    ∀ k k' c, c ≤ N → N - c < k → N - c < k' →
      scanFrom N mask c k = scanFrom N mask c k' := by
  intro k
  induction k with
  | zero => intro k' c _ hk; omega
  | succ k ih =>
    intro k' c hc hk hk'
    cases k' with
    | zero => omega
    | succ k' =>
      by_cases hguard : (c = N || mask.testBit c) = true
      · simp only [scanFrom, hguard, if_true]
      · have hguard' : (c = N || mask.testBit c) = false := by
          cases h : (c = N || mask.testBit c)
          · rfl
          · exact absurd h hguard
        have hcN : c ≠ N := by
          intro h
          simp [h] at hguard'
        simp only [scanFrom, hguard', Bool.false_eq_true, if_false]
        exact ih k' (c + 1) (by omega) (by omega) (by omega)

/-!  `CountTrailingZeros` finds the least set bit. -/

/-- The bit at the trailing-zero count of a nonzero number is set. -/
theorem testBit_countTrailingZeros (n : Nat) (hn : n ≠ 0) :
    n.testBit (CountTrailingZeros n) = true := by
  induction n using Nat.strong_induction_on with
  | _ n ih =>
    rw [CountTrailingZeros, if_neg hn]
    by_cases hodd : n % 2 = 1
    · rw [if_pos hodd, Nat.testBit_zero]
      exact decide_eq_true hodd
    · rw [if_neg hodd, Nat.testBit_succ]
      have hhalf : n / 2 ≠ 0 := by omega
      exact ih (n / 2) (Nat.div_lt_self (Nat.pos_of_ne_zero hn) (by omega)) hhalf

/-- Every bit strictly below the trailing-zero count is clear. -/
theorem testBit_lt_countTrailingZeros (n : Nat) :
    ∀ j, j < CountTrailingZeros n → n.testBit j = false := by
  induction n using Nat.strong_induction_on with
  | _ n ih =>
    intro j hj
    by_cases hn : n = 0
    · subst hn; exact Nat.zero_testBit j
    · rw [CountTrailingZeros, if_neg hn] at hj
      by_cases hodd : n % 2 = 1
      · rw [if_pos hodd] at hj; omega
      · rw [if_neg hodd] at hj
        cases j with
        | zero =>
          rw [Nat.testBit_zero]
          exact decide_eq_false hodd
        | succ j =>
          rw [Nat.testBit_succ]
          exact ih (n / 2) (Nat.div_lt_self (Nat.pos_of_ne_zero hn) (by omega))
            j (by omega)

/-- For a nonzero mask below `2 ^ N`, the trailing-zero count is a valid
feature identifier (strictly below `N`). -/
theorem countTrailingZeros_lt (N n : Nat) (hn : n ≠ 0) (h : n < 2 ^ N) :
    CountTrailingZeros n < N := by
  by_contra hge
  have hpow : 2 ^ N ≤ 2 ^ CountTrailingZeros n :=
    Nat.pow_le_pow_right (by omega) (by omega)
  have := Nat.testBit_lt_two_pow (x := n) (i := CountTrailingZeros n) (by omega)
  rw [testBit_countTrailingZeros n hn] at this
  exact Bool.true_eq_false.mp this

/-!  The traversal enumerates exactly the set bits, in increasing order. -/

/-- From an iterator position `f` at which the loop's invariant holds
(`f` is the sentinel or a member), the traversal visits exactly the set
bits of `mask` in `[f, N)`, in increasing order. -/
theorem iterListAux_eq_filter (N mask : Nat) :
    ∀ k f, f ≤ N → (f = N ∨ mask.testBit f = true) → N - f < k →
      iterListAux N mask f k =
        (List.range' f (N - f)).filter (fun i => mask.testBit i) := by
  intro k
  induction k with
  | zero => intro f _ _ hk; omega
  | succ k ih =>
    intro f hf hinv hk
    by_cases hfN : f = N
    · subst hfN
      simp [iterListAux, Nat.sub_self]
    · have hflt : f < N := lt_of_le_of_ne hf hfN
      have hbit : mask.testBit f = true := by
        rcases hinv with h | h
        · exact absurd h hfN
        · exact h
      have hrec : iterListAux N mask f (k + 1) =
          f :: iterListAux N mask (operatorInc N mask f) k := by
        simp [iterListAux, hfN]
      obtain ⟨hr1, hr2, hr3, hr4⟩ :=
        scanFrom_spec N mask (N + 1) (f + 1) (by omega) (by omega)
      set r := scanFrom N mask (f + 1) (N + 1) with hrdef
      have hinc : operatorInc N mask f = r := by
        rw [operatorInc, if_neg hfN]
      have htail : iterListAux N mask r k =
          (List.range' r (N - r)).filter (fun i => mask.testBit i) :=
        ih r hr2 hr3 (by omega)
      rw [hrec, hinc, htail]
      have hsplit : List.range' (f + 1) (r - (f + 1)) ++
          List.range' r (N - r) = List.range' (f + 1) (N - (f + 1)) := by
        have h1 : f + 1 + (r - (f + 1)) = r := by omega
        have h2 : N - r + (r - (f + 1)) = N - (f + 1) := by omega
        rw [← h2, ← List.range'_append_1, h1]
      have hlen : N - f = (N - (f + 1)) + 1 := by omega
      rw [hlen, List.range'_succ, List.filter_cons_of_pos hbit, ← hsplit,
        List.filter_append]
      have hnil : (List.range' (f + 1) (r - (f + 1))).filter
          (fun i => mask.testBit i) = [] := by
        rw [List.filter_eq_nil_iff]
        intro a ha
        rw [List.mem_range'_1] at ha
        simp only [Bool.not_eq_true]
        exact hr4 a (by omega) (by omega)
      rw [hnil, List.nil_append]

/-- The full traversal of a constructible set (mask below `2 ^ N`)
enumerates exactly its set bits, in increasing order. -/
theorem toList_eq_filter (N : Nat) (s : CPUFeatures)
    (h : s.features_ < 2 ^ N) :
    s.toList N = (List.range N).filter (fun i => s.features_.testBit i) := by
  by_cases h0 : s.features_ = 0
  · have hbegin : CPUFeatures.beginFeature N s = N := by
      rw [CPUFeatures.beginFeature, if_pos h0]
    rw [CPUFeatures.toList, hbegin]
    simp [iterListAux, h0, Nat.zero_testBit]
  · have hbegin : CPUFeatures.beginFeature N s = CountTrailingZeros s.features_ := by
      rw [CPUFeatures.beginFeature, if_neg h0]
    set t := CountTrailingZeros s.features_ with htdef
    have htlt : t < N := countTrailingZeros_lt N s.features_ h0 h
    have htbit : s.features_.testBit t = true := testBit_countTrailingZeros _ h0
    rw [CPUFeatures.toList, hbegin,
      iterListAux_eq_filter N s.features_ (N + 1) t (by omega) (Or.inr htbit)
        (by omega)]
    have hsplit : List.range' 0 t ++ List.range' t (N - t) = List.range' 0 N := by
      have h2 : N - t + t = N := by omega
      have h0t : (0 : Nat) + t = t := by omega
      have happ := List.range'_append_1 0 t (N - t)
      rw [h0t, h2] at happ
      exact happ
    have hnil : (List.range' 0 t).filter (fun i => s.features_.testBit i) = [] := by
      rw [List.filter_eq_nil_iff]
      intro a ha
      rw [List.mem_range'_1] at ha
      simp only [Bool.not_eq_true]
      exact testBit_lt_countTrailingZeros s.features_ a (by omega)
    rw [List.range_eq_range', ← hsplit, List.filter_append, hnil, List.nil_append]

/-- Population count of `n < 2 ^ N` is the number of set bits among the
first `N` bit positions. -/
theorem countSetBits_eq_filter_length :
    ∀ N n, n < 2 ^ N →
      CountSetBits n = ((List.range N).filter (fun i => n.testBit i)).length := by
  intro N
  induction N with
  | zero =>
    intro n hn
    have h0 : n = 0 := by simpa using hn
    subst h0
    rw [CountSetBits]
    simp
  | succ N ih =>
    intro n hn
    by_cases h0 : n = 0
    · subst h0
      rw [CountSetBits]
      simp [Nat.zero_testBit]
    · have hhalf : n / 2 < 2 ^ N := by
        rw [Nat.div_lt_iff_lt_mul (by omega : (0 : Nat) < 2)]
        calc n < 2 ^ (N + 1) := hn
        _ = 2 ^ N * 2 := by rw [Nat.pow_succ]
      have hcomp : (fun i => n.testBit i) ∘ Nat.succ = fun i => (n / 2).testBit i := by
        funext i
        exact Nat.testBit_succ n i
      rw [CountSetBits, if_neg h0, List.range_succ_eq_map, List.filter_cons,
        List.filter_map, hcomp, ih (n / 2) hhalf]
      rcases Nat.mod_two_eq_zero_or_one n with h2 | h2
      · have hbit : n.testBit 0 = false := by
          rw [Nat.testBit_zero]
          exact decide_eq_false (by omega)
        simp [hbit, h2]
      · have hbit : n.testBit 0 = true := by
          rw [Nat.testBit_zero]
          exact decide_eq_true h2
        simp [hbit, h2, Nat.add_comm]

/-!  Small shared facts. -/

theorem countSetBits_zero : CountSetBits 0 = 0 := by
  rw [CountSetBits]
  simp

/-- Population count of the all-ones mask `(1 << N) - 1`. -/
theorem countSetBits_two_pow_sub_one : ∀ N, CountSetBits (2 ^ N - 1) = N := by
  intro N
  induction N with
  | zero => exact countSetBits_zero
  | succ N ih =>
    have hpos : 1 ≤ 2 ^ N := Nat.one_le_two_pow
    have hsucc : 2 ^ (N + 1) = 2 ^ N * 2 := Nat.pow_succ 2 N
    have hval : 2 ^ (N + 1) - 1 = 2 * (2 ^ N - 1) + 1 := by omega
    rw [hval, CountSetBits, if_neg (by omega)]
    have hmod : (2 * (2 ^ N - 1) + 1) % 2 = 1 := by omega
    have hdiv : (2 * (2 ^ N - 1) + 1) / 2 = 2 ^ N - 1 := by omega
    rw [hmod, hdiv, ih]
    omega

/-- Bits of the C++ `~b` on `uint64_t`: set exactly at the in-width
positions where `b` is clear. -/
theorem testBit_not64 (b i : Nat) (hb : b < 2 ^ 64) :
    (not64 b).testBit i = (decide (i < 64) && !b.testBit i) := by
  rw [not64, uint64Max, Nat.testBit_xor, Nat.testBit_two_pow_sub_one]
  by_cases hi : i < 64
  · simp [hi, Bool.xor_comm]
  · have hbit : b.testBit i = false :=
      Nat.testBit_lt_two_pow
        (lt_of_lt_of_le hb (Nat.pow_le_pow_right (by omega) (by omega)))
    simp [hi, hbit]

/-- Masking a `uint64_t` value with all 64 ones is the identity. -/
theorem land_uint64Max (x : Nat) (hx : x < 2 ^ 64) : x &&& uint64Max = x := by
  rw [uint64Max, Nat.and_pow_two_sub_one_eq_mod]
  exact Nat.mod_eq_of_lt hx

/-- Iterating the empty set visits nothing. -/
theorem toList_empty (N : Nat) : CPUFeatures.empty.toList N = [] := by
  rw [CPUFeatures.toList, CPUFeatures.beginFeature]
  simp [CPUFeatures.empty, iterListAux]

/-- One unfolding of the stream loop. -/
theorem formatLoop_cons (name : Nat → String) (N f : Nat) (rest : List Nat) :
    formatLoop name N (f :: rest) =
      (formatFeature name N f).bind fun x =>
        (formatLoop name N rest).bind fun r =>
          some (if rest.isEmpty then x else x ++ ", " ++ r) := rfl

/-- On a list of valid identifiers, the stream loop writes exactly the
names, comma-and-space separated with no trailing separator. -/
theorem formatLoop_valid (name : Nat → String) (N : Nat) :
    ∀ l : List Nat, (∀ f ∈ l, f < N) →
      formatLoop name N l = some (sepJoin (l.map name)) := by
  intro l
  induction l with
  | nil => intro _; rfl
  | cons f rest ih =>
    intro hmem
    have hf : f < N := hmem f (List.mem_cons_self f rest)
    have hfmt : formatFeature name N f = some (name f) := by
      rw [formatFeature, if_neg (by omega), if_pos hf]
    have hrest := ih (fun g hg => hmem g (List.mem_cons_of_mem f hg))
    simp only [formatLoop_cons, hfmt, hrest, Option.some_bind]
    cases rest with
    | nil => rfl
    | cons g rest' => rfl

/-- The bits of the literal mask 5 below any bound `m ≥ 3` are 0 and 2. -/
theorem filter_testBit_five :
    ∀ m, 3 ≤ m →
      (List.range m).filter (fun i => Nat.testBit 5 i) = [0, 2] := by
  intro m hm
  induction m, hm using Nat.le_induction with
  | base => decide
  | succ m hm ih =>
    have h8 : (8 : Nat) ≤ 2 ^ m := by
      calc (8 : Nat) = 2 ^ 3 := by norm_num
      _ ≤ 2 ^ m := Nat.pow_le_pow_right (by omega) hm
    have hbit : Nat.testBit 5 m = false := Nat.testBit_lt_two_pow (by omega)
    rw [List.range_succ, List.filter_append, ih]
    simp [hbit]

/-!  The claims. -/

/-- C1: For every constructible `CPUFeatures` set (its `uint64_t` mask has
bits only at the `N` valid feature positions), `Count()` equals the number
of elements produced by a full iteration from `begin()` to `end()`. -/
theorem claim1_count_eq_iteration_length (N : Nat) (s : CPUFeatures)
    (h : s.features_ < 2 ^ N) :
    s.Count = (s.toList N).length := by
  rw [CPUFeatures.Count, toList_eq_filter N s h,
    countSetBits_eq_filter_length N s.features_ h]

theorem claim1_witness :
    (CPUFeatures.mk 5).features_ < 2 ^ 8 ∧
    (CPUFeatures.mk 5).Count = ((CPUFeatures.mk 5).toList 8).length :=
  ⟨by decide, claim1_count_eq_iteration_length 8 (CPUFeatures.mk 5) (by decide)⟩

/-- C2: Iteration from `begin()` to `end()` yields exactly the members in
ascending identifier order; the empty set yields zero elements; the set
constructed from identifiers 2 and 0 yields exactly `[0, 2]`. -/
theorem claim2_iteration_order (N : Nat) :
    (∀ s : CPUFeatures, s.features_ < 2 ^ N →
      (s.toList N).Pairwise (· < ·) ∧
      ∀ f, f ∈ s.toList N ↔ f < N ∧ s.features_.testBit f = true) ∧
    CPUFeatures.empty.toList N = [] ∧
    (2 < N → N ≤ 64 →
      ∃ s, CPUFeatures.make4 N 2 0 N N = some s ∧ s.toList N = [0, 2]) := by
  refine ⟨?_, toList_empty N, ?_⟩
  · intro s hs
    rw [toList_eq_filter N s hs]
    constructor
    · exact (List.pairwise_lt_range N).sublist (List.filter_sublist _)
    · intro f
      simp [List.mem_filter, List.mem_range]
  · intro h2 h64
    have hm2 : MakeFeatureMask N 2 = some 4 := by
      rw [MakeFeatureMask, if_neg (by omega), if_pos h64, if_pos (by omega)]
      norm_num
    have hm0 : MakeFeatureMask N 0 = some 1 := by
      rw [MakeFeatureMask, if_neg (by omega), if_pos h64, if_pos (by omega)]
      norm_num
    have hmN : MakeFeatureMask N N = some 0 := by
      rw [MakeFeatureMask, if_pos rfl]
    have h5 : (5 : Nat) < 2 ^ N := by
      calc (5 : Nat) < 2 ^ 3 := by norm_num
      _ ≤ 2 ^ N := Nat.pow_le_pow_right (by omega) (by omega)
    refine ⟨⟨5⟩, ?_, ?_⟩
    · simp only [CPUFeatures.make4, CPUFeatures.Combine4, hm2, hm0, hmN,
        Option.some_bind, CPUFeatures.empty]
      rfl
    · rw [toList_eq_filter N ⟨5⟩ h5]
      exact filter_testBit_five N (by omega)

theorem claim2_witness :
    ((CPUFeatures.mk 5).toList 8).Pairwise (· < ·) ∧
    CPUFeatures.empty.toList 8 = [] ∧
    ∃ s, CPUFeatures.make4 8 2 0 8 8 = some s ∧ s.toList 8 = [0, 2] :=
  ⟨((claim2_iteration_order 8).1 (CPUFeatures.mk 5) (by decide)).1,
   (claim2_iteration_order 8).2.1,
   (claim2_iteration_order 8).2.2 (by decide) (by decide)⟩

/-- C3: For all sets A and B, `A.With(B).Has(B)` is true; and
`A.With(B).Without(B).Has(B)` is true only when `A.Has(B)` was already
true (`Without` removes exactly the argument's members, not more). -/
theorem claim3_with_has_without (A B : CPUFeatures)
    (hB : B.features_ < 2 ^ 64) :
    (A.WithSet B).HasSet B = true ∧
    (((A.WithSet B).WithoutSet B).HasSet B = true → A.HasSet B = true) := by
  constructor
  · simp only [CPUFeatures.HasSet, CPUFeatures.WithSet, CPUFeatures.CombineSet,
      beq_iff_eq]
    apply Nat.eq_of_testBit_eq
    intro i
    rw [Nat.testBit_and, Nat.testBit_or]
    cases A.features_.testBit i <;> cases B.features_.testBit i <;> rfl
  · intro h
    have hzero : ((A.WithSet B).WithoutSet B).features_ &&& B.features_ = 0 := by
      simp only [CPUFeatures.WithSet, CPUFeatures.WithoutSet,
        CPUFeatures.CombineSet, CPUFeatures.RemoveSet]
      apply Nat.eq_of_testBit_eq
      intro i
      rw [Nat.testBit_and, Nat.testBit_and, Nat.testBit_or,
        testBit_not64 _ i hB, Nat.zero_testBit]
      cases hb : B.features_.testBit i <;> simp [hb]
    simp only [CPUFeatures.HasSet, beq_iff_eq] at h ⊢
    rw [hzero] at h
    rw [← h, Nat.and_zero]

theorem claim3_witness :
    (CPUFeatures.mk 6).features_ < 2 ^ 64 ∧
    ((CPUFeatures.mk 1).WithSet (CPUFeatures.mk 6)).HasSet (CPUFeatures.mk 6)
      = true ∧
    ((((CPUFeatures.mk 1).WithSet (CPUFeatures.mk 6)).WithoutSet
        (CPUFeatures.mk 6)).HasSet (CPUFeatures.mk 6) = true →
      (CPUFeatures.mk 1).HasSet (CPUFeatures.mk 6) = true) :=
  ⟨by decide,
   (claim3_with_has_without (CPUFeatures.mk 1) (CPUFeatures.mk 6)
     (by decide)).1,
   (claim3_with_has_without (CPUFeatures.mk 1) (CPUFeatures.mk 6)
     (by decide)).2⟩

/-- C4: Rendering a whole set writes each member's name in iteration order,
comma-and-space separated with no trailing separator; the empty set renders
as the empty string; the sentinel identifier itself renders as the literal
"none". -/
theorem claim4_render (name : Nat → String) (N : Nat) :
    (∀ s : CPUFeatures, s.features_ < 2 ^ N →
      s.render name N = some (sepJoin ((s.toList N).map name))) ∧
    CPUFeatures.empty.render name N = some "" ∧
    formatFeature name N N = some "none" := by
  refine ⟨?_, ?_, ?_⟩
  · intro s hs
    rw [CPUFeatures.render]
    apply formatLoop_valid
    intro f hf
    rw [toList_eq_filter N s hs] at hf
    exact List.mem_range.mp (List.mem_filter.mp hf).1
  · rw [CPUFeatures.render, toList_empty]
    rfl
  · rw [formatFeature, if_pos rfl]

theorem claim4_witness :
    (CPUFeatures.mk 5).features_ < 2 ^ 8 ∧
    (CPUFeatures.mk 5).render (fun n => toString n) 8 =
      some (sepJoin (((CPUFeatures.mk 5).toList 8).map (fun n => toString n))) :=
  ⟨by decide,
   (claim4_render (fun n => toString n) 8).1 (CPUFeatures.mk 5) (by decide)⟩

/-- C5: `All()` returns the set with every valid feature identifier, so
`All().Count() = N` and `empty().Count() = 0`; `All()` fails its build-time
check when `N` does not satisfy it (the static assert `N < 64`). -/
theorem claim5_all (N : Nat) :
    (N < 64 →
      ∃ a, CPUFeatures.All N = some a ∧
        (∀ f, f < N → a.features_.testBit f = true) ∧
        a.Count = N ∧ CPUFeatures.empty.Count = 0) ∧
    (64 ≤ N → CPUFeatures.All N = none) := by
  constructor
  · intro h
    refine ⟨⟨2 ^ N - 1⟩, ?_, ?_, ?_, ?_⟩
    · rw [CPUFeatures.All, if_pos h]
    · intro f hf
      rw [Nat.testBit_two_pow_sub_one]
      exact decide_eq_true hf
    · rw [CPUFeatures.Count]
      exact countSetBits_two_pow_sub_one N
    · rw [CPUFeatures.Count]
      exact countSetBits_zero
  · intro h
    rw [CPUFeatures.All, if_neg (by omega)]

theorem claim5_witness :
    (∃ a, CPUFeatures.All 8 = some a ∧
      (∀ f, f < 8 → a.features_.testBit f = true) ∧
      a.Count = 8 ∧ CPUFeatures.empty.Count = 0) ∧
    CPUFeatures.All 64 = none :=
  ⟨(claim5_all 8).1 (by decide), (claim5_all 64).2 (by decide)⟩

/-- C6: Advancing the iterator terminates for every referenced set,
including the empty one: the do-while scan of `operator++`, run as a
partial loop, finishes within `N + 1` iterations (the sentinel is
vacuously "present" and stops it), and the stopping position is at most
the sentinel. -/
theorem claim6_increment_terminates (N mask f : Nat) (hf : f ≤ N) :
    scanFromOpt N mask (if f = N then 0 else f + 1) (N + 1) =
      some (operatorInc N mask f) ∧
    operatorInc N mask f ≤ N := by
  constructor
  · rw [operatorInc]
    by_cases hfN : f = N
    · simp only [if_pos hfN]
      exact scanFromOpt_eq_scanFrom N mask (N + 1) 0 (Nat.zero_le N) (by omega)
    · simp only [if_neg hfN]
      exact scanFromOpt_eq_scanFrom N mask (N + 1) (f + 1) (by omega) (by omega)
  · rw [operatorInc]
    by_cases hfN : f = N
    · simp only [if_pos hfN]
      exact (scanFrom_spec N mask (N + 1) 0 (Nat.zero_le N) (by omega)).2.1
    · simp only [if_neg hfN]
      exact (scanFrom_spec N mask (N + 1) (f + 1) (by omega) (by omega)).2.1

theorem claim6_witness :
    (scanFromOpt 8 0 (if 8 = 8 then 0 else 8 + 1) (8 + 1) =
      some (operatorInc 8 0 8) ∧
    operatorInc 8 0 8 ≤ 8) ∧
    (scanFromOpt 8 5 (if 2 = 8 then 0 else 2 + 1) (8 + 1) =
      some (operatorInc 8 5 2) ∧
    operatorInc 8 5 2 ≤ 8) :=
  ⟨claim6_increment_terminates 8 0 8 (by decide),
   claim6_increment_terminates 8 5 2 (by decide)⟩

/-- C7: `Has()` with all four arguments equal to the sentinel returns true
for every set, including the empty set: a membership query for the
sentinel is vacuously true. -/
theorem claim7_has_sentinel (N : Nat) (s : CPUFeatures) :
    CPUFeatures.Has4 N s N N N N = some true := by
  have hmN : MakeFeatureMask N N = some 0 := by
    rw [MakeFeatureMask, if_pos rfl]
  simp [CPUFeatures.Has4, hmN, Nat.zero_or, Nat.and_zero]

/-- C8: Round-trip: for any sets A and B,
`A.With(B).Without(B) = A.Without(B)`. -/
theorem claim8_with_without_eq_without (A B : CPUFeatures)
    (hB : B.features_ < 2 ^ 64) :
    (A.WithSet B).WithoutSet B = A.WithoutSet B := by
  simp only [CPUFeatures.WithSet, CPUFeatures.WithoutSet,
    CPUFeatures.CombineSet, CPUFeatures.RemoveSet, CPUFeatures.mk.injEq]
  apply Nat.eq_of_testBit_eq
  intro i
  rw [Nat.testBit_and, Nat.testBit_and, Nat.testBit_or, testBit_not64 _ i hB]
  cases B.features_.testBit i <;> cases A.features_.testBit i <;> simp

theorem claim8_witness :
    (CPUFeatures.mk 6).features_ < 2 ^ 64 ∧
    ((CPUFeatures.mk 3).WithSet (CPUFeatures.mk 6)).WithoutSet
        (CPUFeatures.mk 6) =
      (CPUFeatures.mk 3).WithoutSet (CPUFeatures.mk 6) :=
  ⟨by decide,
   claim8_with_without_eq_without (CPUFeatures.mk 3) (CPUFeatures.mk 6)
     (by decide)⟩

/-- C9: The bit-mapping contributes `0` for the sentinel and `1 << f` for a
valid `f`; an identifier above the sentinel trips the fatal assertion
(`none`), never a recoverable error; under the in-range precondition the
assertion branch is unreachable (the result is always `some`). -/
theorem claim9_make_feature_mask (N f : Nat) (hN : N ≤ 64) :
    (f = N → MakeFeatureMask N f = some 0) ∧
    (f < N → MakeFeatureMask N f = some (2 ^ f)) ∧
    (N < f → MakeFeatureMask N f = none) := by
  refine ⟨fun h => ?_, fun h => ?_, fun h => ?_⟩
  · rw [MakeFeatureMask, if_pos h]
  · rw [MakeFeatureMask, if_neg (by omega), if_pos hN, if_pos h]
  · rw [MakeFeatureMask, if_neg (by omega), if_pos hN, if_neg (by omega)]

theorem claim9_witness :
    MakeFeatureMask 8 8 = some 0 ∧
    MakeFeatureMask 8 5 = some 32 ∧
    MakeFeatureMask 8 9 = none :=
  ⟨(claim9_make_feature_mask 8 8 (by decide)).1 rfl,
   (claim9_make_feature_mask 8 5 (by decide)).2.1 (by decide),
   (claim9_make_feature_mask 8 9 (by decide)).2.2 (by decide)⟩

/-- C10: `Remove` (and hence `Without`) called with only sentinel
arguments is the identity on any `uint64_t`-ranged set: the sentinel's
mask contribution is 0 in removal as well as in insertion. -/
theorem claim10_remove_sentinel_identity (N : Nat) (s : CPUFeatures)
    (hs : s.features_ < 2 ^ 64) :
    CPUFeatures.Remove4 N s N N N N = some s ∧
    CPUFeatures.Without4 N s N N N N = some s := by
  have hmN : MakeFeatureMask N N = some 0 := by
    rw [MakeFeatureMask, if_pos rfl]
  have hnot : not64 0 = uint64Max := by
    rw [not64, Nat.zero_xor]
  have hland : s.features_ &&& uint64Max = s.features_ :=
    land_uint64Max s.features_ hs
  constructor
  · simp only [CPUFeatures.Remove4, hmN, Option.bind_eq_bind,
      Option.some_bind, hnot, hland]
    rfl
  · simp only [CPUFeatures.Without4, CPUFeatures.Remove4, hmN,
      Option.bind_eq_bind, Option.some_bind, hnot, hland]
    rfl

theorem claim10_witness :
    (CPUFeatures.mk 5).features_ < 2 ^ 64 ∧
    CPUFeatures.Remove4 8 (CPUFeatures.mk 5) 8 8 8 8 =
      some (CPUFeatures.mk 5) ∧
    CPUFeatures.Without4 8 (CPUFeatures.mk 5) 8 8 8 8 =
      some (CPUFeatures.mk 5) :=
  ⟨by decide,
   (claim10_remove_sentinel_identity 8 (CPUFeatures.mk 5) (by decide)).1,
   (claim10_remove_sentinel_identity 8 (CPUFeatures.mk 5) (by decide)).2⟩

end vixl

